import Mathlib

/-!
Verification development for `paragraph_threads.c` (repository
`os_multithreadedprinter`): a pool of `NUM_THREADS` worker threads prints a
paragraph word by word, synchronized by a ring of counting semaphores
(synchronized mode) or entirely unsynchronized (chaos mode).

The source tree carries two variants of `print_paragraph`'s word
assignment:
* a *strided* assignment (`for (j = i; j < total_words; j += NUM_THREADS)`),
  giving thread `i` the words at positions `i, i+N, i+2N, ...`;
* a *block* assignment (`word_count = words_per_thread + (i < extra ? 1 : 0)`
  with a running `word_index`), giving thread `i` a contiguous block.
Both are embedded below (`sharesStrided`, `sharesBlock`).

The semaphore ring (`init_semaphores`, `reset_semaphores`, the loop body of
`print_thread`) is embedded as a small-step transition system over explicit
states; the claims about rotation order, mutual exclusion, termination and
gate counts are proved as invariants of all reachable states.
-/

namespace ParagraphThreads

/-! ### Work partitioner, strided variant

`print_thread` data setup, strided variant:
`for (int j = i; j < total_words; j += NUM_THREADS) thread_data[i].words[word_pos++] = all_words[j];`
`strideAux N k l` returns the elements of `l` at positions `k, k+N, k+2N, ...`
(the counter counts down to the next taken element). -/
def strideAux (N : Nat) : Nat → List α → List α
  | _, [] => []
  | 0, a :: l => a :: strideAux N (N - 1) l
  | k + 1, _ :: l => strideAux N k l

/-- Strided partition: share `i` holds the words at positions `i, i+N, ...`
of the original sequence (variant with `j += NUM_THREADS`). -/
def sharesStrided (ws : List α) (N : Nat) : List (List α) :=
  (List.range N).map (fun i => strideAux N i ws)

/-! ### Work partitioner, block variant -/

/-- Word count of thread `i` in the block variant:
`words_per_thread + (i < extra_words ? 1 : 0)` where
`words_per_thread = total_words / NUM_THREADS` and
`extra_words = total_words % NUM_THREADS`. (The strided variant produces the
same counts, proved below.) -/
def blockCount (M N i : Nat) : Nat :=
  M / N + if i < M % N then 1 else 0

/-- Sequential assignment from a running `word_index`: split `ws` into
consecutive chunks of the given sizes. -/
def splitByCounts : List Nat → List α → List (List α)
  | [], _ => []
  | c :: cs, ws => ws.take c :: splitByCounts cs (ws.drop c)

/-- Block partition: share `i` is the `i`-th contiguous chunk, the first
`M % N` chunks one word longer (variant with `word_index++`). -/
def sharesBlock (ws : List α) (N : Nat) : List (List α) :=
  splitByCounts ((List.range N).map (blockCount ws.length N)) ws

/-! ### Semaphore ring -/

/-- `init_semaphores`: `sem_init(&semaphores[i], 0, (i == 0) ? 1 : 0)` for
every `i < NUM_THREADS`; the list holds the semaphore counts. -/
def init_semaphores (N : Nat) : List Nat :=
  (List.range N).map (fun i => if i = 0 then 1 else 0)

/-- `destroy_semaphores`: releases the semaphore objects; the counts are
gone afterwards. -/
def destroy_semaphores (_s : List Nat) : List Nat := []

/-- `reset_semaphores`: destroy the existing semaphores, then initialize
them again; whatever counts the previous run left are discarded. -/
def reset_semaphores (N : Nat) (prev : List Nat) : List Nat :=
  let _destroyed := destroy_semaphores prev
  init_semaphores N

/-- A semaphore array that is `1` at gate `p` and `0` everywhere else. -/
def oneHot (N p : Nat) : List Nat :=
  (List.replicate N 0).set p 1

/-! ### Small-step model of a synchronized run

One worker thread runs
`for (i = 0; i < word_count; i++) { sem_wait(own); usleep(...); printf(word); sem_post(next); }`.
A loop iteration is modeled by two atomic steps: `acquire` (the `sem_wait`
returning, entering the critical section) and `emit` (printing the word and
the `sem_post`, leaving the critical section). The random `usleep` delays
only influence the interleaving, which the step relation leaves fully
nondeterministic. -/

/-- Global state of one synchronized run of `print_paragraph`:
semaphore counts, which workers sit between their `sem_wait` and `sem_post`,
each worker's loop index, the per-worker counts of completed `sem_wait` and
`sem_post` calls, and the (thread id, word) emissions in output order. -/
structure RunState (α : Type) where
  sems : List Nat
  emitting : List Bool
  done : List Nat
  acq : List Nat
  post : List Nat
  trace : List (Nat × α)
  deriving DecidableEq, Repr

/-- State before any worker has run: `init_semaphores` has armed gate 0,
nobody is in its critical section, no word has been printed. -/
def initState (α : Type) (N : Nat) : RunState α :=
  ⟨init_semaphores N, List.replicate N false, List.replicate N 0,
   List.replicate N 0, List.replicate N 0, []⟩

/-- The two atomic steps of the loop body of `print_thread` in synchronized
mode, for an arbitrary interleaving of the `N = shares.length` workers. -/
inductive SyncStep [Inhabited α] (shares : List (List α)) :
    RunState α → RunState α → Prop
  | acquire (s : RunState α) (i : Nat)
      (hi : i < shares.length)
      (hrem : s.done.getD i 0 < (shares.getD i []).length)
      (hidle : s.emitting.getD i false = false)
      (hsem : 0 < s.sems.getD i 0) :
      SyncStep shares s
        { s with sems := s.sems.set i (s.sems.getD i 0 - 1),
                 emitting := s.emitting.set i true,
                 acq := s.acq.set i (s.acq.getD i 0 + 1) }
  | emit (s : RunState α) (i : Nat)
      (hi : i < shares.length)
      (hbusy : s.emitting.getD i false = true) :
      SyncStep shares s
        { s with emitting := s.emitting.set i false,
                 done := s.done.set i (s.done.getD i 0 + 1),
                 post := s.post.set i (s.post.getD i 0 + 1),
                 sems := s.sems.set ((i + 1) % shares.length)
                   (s.sems.getD ((i + 1) % shares.length) 0 + 1),
                 trace := s.trace ++
                   [(i, (shares.getD i []).getD (s.done.getD i 0) default)] }

/-- States a synchronized run can reach from the freshly initialized state. -/
def Reaches [Inhabited α] (shares : List (List α)) (s : RunState α) : Prop :=
  Relation.ReflTransGen (SyncStep shares) (initState α shares.length) s

/-- No worker can take a step any more (all threads are about to return and
`pthread_join` completes). -/
def Stuck [Inhabited α] (shares : List (List α)) (s : RunState α) : Prop :=
  ∀ s', ¬ SyncStep shares s s'

/-! ### Small-step model of a chaos run

In chaos mode (`is_chaos_mode` set) the loop body of `print_thread` touches
no semaphore: each worker just prints its next word after a random delay, so
any interleaving of the per-worker emissions can occur. -/

/-- State of one chaos-mode run: each worker's loop index and the emissions
in output order. -/
structure ChaosState (α : Type) where
  done : List Nat
  trace : List (Nat × α)
  deriving DecidableEq, Repr

/-- Chaos state before any worker has printed. -/
def initChaos (α : Type) (N : Nat) : ChaosState α :=
  ⟨List.replicate N 0, []⟩

/-- The loop body of `print_thread` in chaos mode: any worker with words
left may print its next word, in any interleaving. -/
inductive ChaosStep [Inhabited α] (shares : List (List α)) :
    ChaosState α → ChaosState α → Prop
  | emit (s : ChaosState α) (i : Nat)
      (hi : i < shares.length)
      (hrem : s.done.getD i 0 < (shares.getD i []).length) :
      ChaosStep shares s
        ⟨s.done.set i (s.done.getD i 0 + 1),
         s.trace ++ [(i, (shares.getD i []).getD (s.done.getD i 0) default)]⟩

/-- States a chaos run can reach from its initial state. -/
def ChaosReaches [Inhabited α] (shares : List (List α)) (s : ChaosState α) :
    Prop :=
  Relation.ReflTransGen (ChaosStep shares) (initChaos α shares.length) s

/-- No chaos worker can print any more. -/
def ChaosStuck [Inhabited α] (shares : List (List α)) (s : ChaosState α) :
    Prop :=
  ∀ s', ¬ ChaosStep shares s s'

/-! ### Invariant vocabulary -/

/-- Number of words assigned to worker `i` (its `word_count`). -/
def wlen (shares : List (List α)) (i : Nat) : Nat :=
  (shares.getD i []).length

/-- The emission sequence the rotation forces: the `k`-th emission overall is
worker `k % N` printing its word number `k / N`. -/
def canonTrace [Inhabited α] (shares : List (List α)) (t : Nat) :
    List (Nat × α) :=
  (List.range t).map (fun k =>
    (k % shares.length,
     (shares.getD (k % shares.length) []).getD (k / shares.length) default))

/-- The words the workers have emitted so far, grouped by worker: worker `i`
has printed exactly the first `d i` words of its share. -/
def taggedTake (shares : List (List α)) (d : List Nat) : List (Nat × α) :=
  ((List.range shares.length).map (fun i =>
    ((shares.getD i []).take (d.getD i 0)).map (fun x => (i, x)))).flatten

/-- Round `r` of the spec's rotation: the ids of the workers whose share
still has a word number `r`, in ascending order. -/
def rotRound (w : List Nat) (r : Nat) : List Nat :=
  (List.range w.length).filter (fun i => decide (r < w.getD i 0))

/-- The spec's full rotation sequence `0,1,...,N-1,0,1,...`, a worker id
dropping out of rotation once its share is exhausted. -/
def rotSeq (w : List Nat) : List Nat :=
  ((List.range (w.foldr max 0)).map (rotRound w)).flatten

/-- The inductive invariant of a synchronized run. Writing `N` for the
worker count and `t` for the number of emissions so far: the per-worker
loop indices follow the rotation profile (`t / N` full rounds, the first
`t % N` workers one ahead), nobody has overrun its share, the `sem_wait` and
`sem_post` counters agree with the loop indices, the emissions so far are
exactly the canonical rotation prefix (and a permutation of the words each
worker has consumed), and the single token of the ring is either parked on
gate `t % N` or held by worker `t % N` inside its critical section. -/
def Inv [Inhabited α] (shares : List (List α)) (s : RunState α) : Prop :=
  s.sems.length = shares.length ∧
  s.emitting.length = shares.length ∧
  s.done.length = shares.length ∧
  s.acq.length = shares.length ∧
  s.post.length = shares.length ∧
  (∀ i, i < shares.length →
    s.done.getD i 0 = s.trace.length / shares.length +
      if i < s.trace.length % shares.length then 1 else 0) ∧
  (∀ i, i < shares.length → s.done.getD i 0 ≤ wlen shares i) ∧
  (∀ i, i < shares.length → s.post.getD i 0 = s.done.getD i 0) ∧
  (∀ i, i < shares.length →
    s.acq.getD i 0 = s.done.getD i 0 +
      if s.emitting.getD i false then 1 else 0) ∧
  s.trace = canonTrace shares s.trace.length ∧
  s.trace.Perm (taggedTake shares s.done) ∧
  ((s.emitting = List.replicate shares.length false ∧
      s.sems = oneHot shares.length (s.trace.length % shares.length)) ∨
   (s.emitting = (List.replicate shares.length false).set
        (s.trace.length % shares.length) true ∧
      s.sems = List.replicate shares.length 0 ∧
      s.trace.length / shares.length <
        wlen shares (s.trace.length % shares.length)))

/-! ### Process exit model

`main` seeds the RNG, splits the paragraph, initializes the semaphores,
runs `print_paragraph` in normal then chaos mode with a `reset_semaphores`
in between, and returns `0`. Every failing `malloc`/`strdup`/`sem_init`/
`pthread_create` is answered by `perror` + `exit(EXIT_FAILURE)` on the spot;
no call is retried. The environment records which of those primitive calls
succeed. -/

/-- Which fallible system primitives succeed during one process run. -/
structure SysEnv where
  mallocOk : Bool
  strdupOk : Bool
  semInitOk : Bool
  threadCreateOk : Bool
  deriving DecidableEq, Repr

/-- `EXIT_FAILURE` on the target platform. -/
def EXIT_FAILURE : Nat := 1

/-- Error behaviour of `split_paragraph_into_words`: `malloc` of the word
array, `strdup` of the paragraph copy, `strdup` of each word; each failure
exits with `EXIT_FAILURE`. -/
def splitWordsRun (e : SysEnv) : Except Nat Unit :=
  if !e.mallocOk then .error EXIT_FAILURE
  else if !e.strdupOk then .error EXIT_FAILURE
  else .ok ()

/-- Error behaviour of `init_semaphores`: a failing `sem_init` exits with
`EXIT_FAILURE`. -/
def initSemaphoresRun (e : SysEnv) : Except Nat Unit :=
  if !e.semInitOk then .error EXIT_FAILURE else .ok ()

/-- Error behaviour of `print_paragraph`: the per-thread `malloc` of the
word array and `pthread_create` can fail, each exiting with `EXIT_FAILURE`;
`pthread_join` and `free` are not checked. -/
def printParagraphRun (e : SysEnv) : Except Nat Unit :=
  if !e.mallocOk then .error EXIT_FAILURE
  else if !e.threadCreateOk then .error EXIT_FAILURE
  else .ok ()

/-- Error behaviour of `reset_semaphores`: `sem_destroy`'s result is
ignored, then `init_semaphores` runs again. -/
def resetSemaphoresRun (e : SysEnv) : Except Nat Unit :=
  initSemaphoresRun e

/-- Exit status of the whole process: the first failing primitive call ends
the process with its `exit` code, and if `split_paragraph_into_words`,
`init_semaphores`, both `print_paragraph` runs and the intermediate
`reset_semaphores` all complete, `main` returns `0`. -/
def mainExit (e : SysEnv) : Nat :=
  match (do
    splitWordsRun e
    initSemaphoresRun e
    printParagraphRun e
    resetSemaphoresRun e
    printParagraphRun e : Except Nat Unit) with
  | .error c => c
  | .ok _ => 0

/-! ### List access helpers -/

theorem getD_set_self {l : List β} {i : Nat} (h : i < l.length) (v d : β) :
    (l.set i v).getD i d = v := by
  simp [List.getD_eq_getElem?_getD, List.getElem?_set_self h]

theorem getD_set_ne {l : List β} {i j : Nat} (h : i ≠ j) (v d : β) :
    (l.set i v).getD j d = l.getD j d := by
  simp [List.getD_eq_getElem?_getD, List.getElem?_set_ne h]

theorem getD_replicate {n i : Nat} {v d : β} (h : i < n) :
    (List.replicate n v).getD i d = v := by
  simp [List.getD_eq_getElem?_getD, List.getElem?_replicate, h]

theorem getD_replicate_ge {n i : Nat} {v d : β} (h : n ≤ i) :
    (List.replicate n v).getD i d = d := by
  simp [List.getD_eq_getElem?_getD, List.getElem?_replicate, Nat.not_lt.mpr h]

theorem getD_range {n i : Nat} (h : i < n) (d : Nat) :
    (List.range n).getD i d = i := by
  simp [List.getD_eq_getElem?_getD, List.getElem?_range h]

theorem getD_map_lt (f : β → γ) {l : List β} {i : Nat} (h : i < l.length)
    (d : γ) (d' : β) : (l.map f).getD i d = f (l.getD i d') := by
  simp [List.getD_eq_getElem?_getD, List.getElem?_eq_getElem, h]

theorem getD_ge {l : List β} {i : Nat} (h : l.length ≤ i) (d : β) :
    l.getD i d = d := by
  simp [List.getD_eq_getElem?_getD, List.getElem?_eq_none h]

theorem set_replicate_self {n i : Nat} (v : β) :
    (List.replicate n v).set i v = List.replicate n v := by
  induction n generalizing i with
  | zero => rfl
  | succ n ih =>
    cases i <;> simp [List.replicate_succ, List.set, ih]

/-! ### `oneHot` helpers -/

theorem oneHot_getD_self {N p : Nat} (h : p < N) : (oneHot N p).getD p 0 = 1 :=
  getD_set_self (by simpa using h) 1 0

theorem oneHot_getD_ne {N p j : Nat} (h : j ≠ p) : (oneHot N p).getD j 0 = 0 := by
  unfold oneHot
  rw [getD_set_ne (fun hpj => h hpj.symm)]
  rcases Nat.lt_or_ge j N with hj | hj
  · exact getD_replicate hj
  · exact getD_replicate_ge hj

theorem oneHot_pos {N p j : Nat} (h : 0 < (oneHot N p).getD j 0) : j = p := by
  by_contra hne
  rw [oneHot_getD_ne hne] at h
  omega

theorem oneHot_set_zero {N p : Nat} : (oneHot N p).set p 0 = List.replicate N 0 := by
  rw [oneHot, List.set_set, set_replicate_self]

theorem length_oneHot (N p : Nat) : (oneHot N p).length = N := by
  simp [oneHot]

theorem init_semaphores_eq_oneHot (N : Nat) :
    init_semaphores N = oneHot N 0 := by
  cases N with
  | zero => rfl
  | succ n =>
    rw [init_semaphores, oneHot, List.range_succ_eq_map, List.replicate_succ]
    simp [List.map_map, Function.comp_def]

/-! ### Division helpers -/

theorem succ_divmod {N : Nat} (hN : 1 ≤ N) (t : Nat) :
    (t % N + 1 < N ∧ (t + 1) / N = t / N ∧ (t + 1) % N = t % N + 1) ∨
    (t % N + 1 = N ∧ (t + 1) / N = t / N + 1 ∧ (t + 1) % N = 0) := by
  have hm : t % N < N := Nat.mod_lt _ hN
  have ht : N * (t / N) + t % N = t := Nat.div_add_mod t N
  rcases Nat.lt_or_ge (t % N + 1) N with h | h
  · left
    have he : t + 1 = (t % N + 1) + N * (t / N) := by omega
    refine ⟨h, ?_, ?_⟩
    · rw [he, Nat.add_mul_div_left _ _ hN, Nat.div_eq_of_lt h, Nat.zero_add]
    · rw [he, Nat.add_mul_mod_self_left, Nat.mod_eq_of_lt h]
  · right
    have he : t % N + 1 = N := by omega
    have hd : N * (t / N + 1) = N * (t / N) + N := by ring
    have he2 : t + 1 = N * (t / N + 1) := by omega
    refine ⟨he, ?_, ?_⟩
    · rw [he2, Nat.mul_div_cancel_left _ (by omega : 0 < N)]
    · rw [he2, Nat.mul_mod_right]

/-! ### `canonTrace` helpers -/

theorem canonTrace_succ [Inhabited α] (shares : List (List α)) (t : Nat) :
    canonTrace shares (t + 1) = canonTrace shares t ++
      [(t % shares.length,
        (shares.getD (t % shares.length) []).getD (t / shares.length) default)] := by
  simp [canonTrace, List.range_succ]

theorem canonTrace_length [Inhabited α] (shares : List (List α)) (t : Nat) :
    (canonTrace shares t).length = t := by
  simp [canonTrace]

theorem canonTrace_map_fst [Inhabited α] (shares : List (List α)) (t : Nat) :
    (canonTrace shares t).map Prod.fst =
      (List.range t).map (fun k => k % shares.length) := by
  simp [canonTrace, List.map_map, Function.comp_def]

/-! ### `taggedTake` helpers -/

theorem taggedTake_init (shares : List (List α)) :
    taggedTake shares (List.replicate shares.length 0) = [] := by
  unfold taggedTake
  rw [List.flatten_eq_nil_iff]
  intro l hl
  rcases List.mem_map.mp hl with ⟨i, hi, rfl⟩
  rw [getD_replicate (List.mem_range.mp hi)]
  simp

theorem take_succ_of_lt {l : List β} {n : Nat} (h : n < l.length) (d : β) :
    l.take (n + 1) = l.take n ++ [l.getD n d] := by
  rw [List.take_succ, List.getElem?_eq_getElem h]
  simp [List.getD_eq_getElem?_getD, List.getElem?_eq_getElem h]

theorem flatten_update_perm {l : List Nat} (hnd : l.Nodup) {j : Nat}
    (hj : j ∈ l) (f g : Nat → List β)
    (hfg : ∀ i ∈ l, i ≠ j → g i = f i) {x : β} (hgj : g j = f j ++ [x]) :
    ((l.map g).flatten).Perm ((l.map f).flatten ++ [x]) := by
  induction l with
  | nil => cases hj
  | cons a l ih =>
    rcases List.nodup_cons.mp hnd with ⟨ha, hnd'⟩
    rcases List.mem_cons.mp hj with rfl | hj'
    · have hl : l.map g = l.map f :=
        List.map_congr_left (fun i hi =>
          hfg i (List.mem_cons_of_mem _ hi) (by rintro rfl; exact ha hi))
      simp only [List.map_cons, List.flatten_cons, hgj, hl]
      rw [List.append_assoc, List.append_assoc]
      exact List.Perm.append_left _ (@List.perm_append_comm _ [x] _)
    · have haj : a ≠ j := by rintro rfl; exact ha hj'
      have hrec := ih hnd' hj' (fun i hi => hfg i (List.mem_cons_of_mem _ hi))
      simp only [List.map_cons, List.flatten_cons,
        hfg a (List.mem_cons_self a l) haj]
      rw [List.append_assoc]
      exact List.Perm.append_left _ hrec

theorem taggedTake_set_perm [Inhabited α] (shares : List (List α))
    (d : List Nat) (p : Nat) (hp : p < shares.length) (hd : p < d.length)
    (hrem : d.getD p 0 < (shares.getD p []).length) :
    (taggedTake shares (d.set p (d.getD p 0 + 1))).Perm
      (taggedTake shares d ++
        [(p, (shares.getD p []).getD (d.getD p 0) default)]) := by
  unfold taggedTake
  apply flatten_update_perm (List.nodup_range _) (List.mem_range.mpr hp)
  · intro i _ hne
    rw [getD_set_ne (fun h => hne h.symm)]
  · rw [getD_set_self hd, take_succ_of_lt hrem default, List.map_append]
    rfl

/-! ### The invariant holds initially and is preserved -/

theorem inv_init [Inhabited α] (shares : List (List α)) :
    Inv shares (initState α shares.length) := by
  refine ⟨by simp [initState, init_semaphores], by simp [initState],
    by simp [initState], by simp [initState], by simp [initState],
    ?_, ?_, ?_, ?_, rfl, ?_, Or.inl ⟨rfl, ?_⟩⟩
  · intro i hi
    simp [initState, getD_replicate hi]
  · intro i hi
    simp [initState, getD_replicate hi]
  · intro i hi
    simp [initState, getD_replicate hi]
  · intro i hi
    simp [initState, getD_replicate hi]
  · show List.Perm [] (taggedTake shares (List.replicate shares.length 0))
    rw [taggedTake_init]
  · show init_semaphores shares.length = oneHot shares.length (0 % shares.length)
    rw [Nat.zero_mod, init_semaphores_eq_oneHot]

theorem inv_step [Inhabited α] {shares : List (List α)} {s s' : RunState α}
    (hN : 1 ≤ shares.length) (hinv : Inv shares s)
    (hstep : SyncStep shares s s') : Inv shares s' := by
  obtain ⟨hls, hle, hld, hla, hlp, hprof, hbound, hpost, hacq, htr, hperm, htok⟩ :=
    hinv
  have hmod : s.trace.length % shares.length < shares.length :=
    Nat.mod_lt _ hN
  cases hstep with
  | acquire i hi hrem hidle hsem =>
    rcases htok with ⟨hemit, hsems⟩ | ⟨hemit, hsems, _⟩
    · -- the ring token was parked on a gate; only gate i can have been open
      have hip : i = s.trace.length % shares.length := by
        apply oneHot_pos (N := shares.length)
        rw [← hsems]; exact hsem
      refine ⟨by simpa using hls, by simpa using hle, hld, by simpa using hla,
        hlp, hprof, hbound, hpost, ?_, htr, hperm, Or.inr ⟨?_, ?_, ?_⟩⟩
      · intro j hj
        have hja : j < s.acq.length := by omega
        have hje : j < s.emitting.length := by omega
        rcases eq_or_ne j i with heq | hne
        · rw [heq, getD_set_self (heq ▸ hja), getD_set_self (heq ▸ hje)]
          rw [hacq i hi, hidle]
          simp
        · rw [getD_set_ne (fun h => hne h.symm), getD_set_ne (fun h => hne h.symm)]
          exact hacq j hj
      · rw [hemit, hip]
      · rw [hip, hsems, oneHot_getD_self hmod, oneHot_set_zero]
      · have h0 : s.done.getD (s.trace.length % shares.length) 0 =
            s.trace.length / shares.length := by simpa using hprof _ hmod
        rw [← h0, ← hip]
        exact hrem
    · -- somebody is inside the critical section: all gates are closed,
      -- so no `sem_wait` can return
      rw [hsems, getD_replicate hi] at hsem
      omega
  | emit i hi hbusy =>
    rcases htok with ⟨hemit, hsems⟩ | ⟨hemit, hsems, hstrict⟩
    · rw [hemit, getD_replicate hi] at hbusy
      cases hbusy
    · have hip : i = s.trace.length % shares.length := by
        by_contra hne
        rw [hemit, getD_set_ne (fun h => hne h.symm), getD_replicate hi] at hbusy
        cases hbusy
      subst hip
      have hdonep : s.done.getD (s.trace.length % shares.length) 0 =
          s.trace.length / shares.length := by
        simpa using hprof _ hmod
      have htlen : (s.trace ++
          [(s.trace.length % shares.length,
            (shares.getD (s.trace.length % shares.length) []).getD
              (s.done.getD (s.trace.length % shares.length) 0) default)]).length =
          s.trace.length + 1 := by
        simp
      refine ⟨by simpa using hls, by simpa using hle, by simpa using hld,
        hla, by simpa using hlp, ?_, ?_, ?_, ?_, ?_, ?_, Or.inl ⟨?_, ?_⟩⟩
      · -- loop-index profile after the emission
        intro j hj
        have hjd : j < s.done.length := by omega
        rw [htlen]
        rcases succ_divmod hN s.trace.length with ⟨h1, h2, h3⟩ | ⟨h1, h2, h3⟩ <;>
          rw [h2, h3] <;>
          rcases eq_or_ne j (s.trace.length % shares.length) with heq | hne
        · rw [heq, getD_set_self (heq ▸ hjd), hdonep]
          simp
        · rw [getD_set_ne (fun h => hne h.symm), hprof j hj]
          by_cases hlt : j < s.trace.length % shares.length
          · rw [if_pos hlt, if_pos (by omega)]
          · rw [if_neg hlt, if_neg (by omega)]
        · rw [heq, getD_set_self (heq ▸ hjd), hdonep]
          simp
        · rw [getD_set_ne (fun h => hne h.symm), hprof j hj]
          have hjlt : j < s.trace.length % shares.length := by omega
          rw [if_pos hjlt, if_neg (by omega)]
      · intro j hj
        have hjd : j < s.done.length := by omega
        rcases eq_or_ne j (s.trace.length % shares.length) with heq | hne
        · rw [heq, getD_set_self (heq ▸ hjd), hdonep]
          exact heq ▸ hstrict
        · rw [getD_set_ne (fun h => hne h.symm)]
          exact hbound j hj
      · intro j hj
        have hjd : j < s.done.length := by omega
        have hjp : j < s.post.length := by omega
        rcases eq_or_ne j (s.trace.length % shares.length) with heq | hne
        · rw [heq, getD_set_self (heq ▸ hjp), getD_set_self (heq ▸ hjd),
            hpost _ (heq ▸ hj)]
        · rw [getD_set_ne (fun h => hne h.symm), getD_set_ne (fun h => hne h.symm)]
          exact hpost j hj
      · intro j hj
        have hjd : j < s.done.length := by omega
        have hje : j < s.emitting.length := by omega
        have hef : (s.emitting.set (s.trace.length % shares.length) false).getD
            j false = false := by
          rcases eq_or_ne j (s.trace.length % shares.length) with heq | hne
          · rw [heq]
            exact getD_set_self (heq ▸ hje) _ _
          · rw [getD_set_ne (fun h => hne h.symm), hemit,
              getD_set_ne (fun h => hne h.symm), getD_replicate hj]
        rw [hef]
        simp only [Bool.false_eq_true, if_false, Nat.add_zero]
        rcases eq_or_ne j (s.trace.length % shares.length) with heq | hne
        · rw [heq, getD_set_self (heq ▸ hjd), hacq _ (heq ▸ hj), hemit,
            getD_set_self (by simpa using hmod)]
          simp
        · rw [getD_set_ne (fun h => hne h.symm), hacq j hj, hemit,
            getD_set_ne (fun h => hne h.symm), getD_replicate hj]
          simp
      · -- the trace stays the canonical rotation prefix
        rw [htlen, canonTrace_succ, ← htr, hdonep]
      · -- and a permutation of what the workers consumed
        have h1 : List.Perm (s.trace ++
            [(s.trace.length % shares.length,
              (shares.getD (s.trace.length % shares.length) []).getD
                (s.done.getD (s.trace.length % shares.length) 0) default)])
            (taggedTake shares s.done ++
            [(s.trace.length % shares.length,
              (shares.getD (s.trace.length % shares.length) []).getD
                (s.done.getD (s.trace.length % shares.length) 0) default)]) :=
          List.Perm.append_right _ hperm
        refine h1.trans ?_
        refine (taggedTake_set_perm shares s.done _ hmod (by omega) ?_).symm
        rw [hdonep]
        exact hstrict
      · rw [hemit, List.set_set, set_replicate_self]
      · rw [hsems, htlen]
        have hj : (s.trace.length % shares.length + 1) % shares.length <
            shares.length := Nat.mod_lt _ hN
        rw [getD_replicate hj, Nat.mod_add_mod]
        rfl

/-- Every reachable state of a synchronized run satisfies the invariant. -/
theorem inv_of_reaches [Inhabited α] {shares : List (List α)}
    (hN : 1 ≤ shares.length) {s : RunState α} (h : Reaches shares s) :
    Inv shares s := by
  induction h with
  | refl => exact inv_init shares
  | tail _ hstep ih => exact inv_step hN ih hstep

/-! ### Completed runs -/

theorem wlen_of_counts {shares : List (List α)} {M : Nat}
    (hw : shares.map List.length =
      (List.range shares.length).map (blockCount M shares.length))
    {i : Nat} (hi : i < shares.length) :
    wlen shares i = blockCount M shares.length i := by
  have h1 : (shares.map List.length).getD i 0 = wlen shares i := by
    rw [getD_map_lt List.length hi 0 []]
    rfl
  have h2 : ((List.range shares.length).map
      (blockCount M shares.length)).getD i 0 = blockCount M shares.length i := by
    rw [getD_map_lt _ (by simpa using hi) 0 0, getD_range hi]
  rw [hw] at h1
  rw [← h1, h2]

/-- In a stuck reachable state of a synchronized run over balanced shares
(`word_count i = M / N + (i < M % N ? 1 : 0)`, as both partitioners
produce), every worker has finished its whole share: all `M` words are out,
the trace is the full canonical rotation, nobody holds the critical section,
the one token is parked on gate `M % N`, and every loop, `sem_wait` and
`sem_post` counter equals the worker's share size. -/
theorem stuck_complete [Inhabited α] {shares : List (List α)} {M : Nat}
    (hN : 1 ≤ shares.length)
    (hw : shares.map List.length =
      (List.range shares.length).map (blockCount M shares.length))
    {s : RunState α} (hr : Reaches shares s) (hs : Stuck shares s) :
    s.trace.length = M ∧
    s.trace = canonTrace shares M ∧
    s.emitting = List.replicate shares.length false ∧
    s.sems = oneHot shares.length (M % shares.length) ∧
    (∀ i, i < shares.length → s.done.getD i 0 = wlen shares i ∧
      s.post.getD i 0 = wlen shares i ∧ s.acq.getD i 0 = wlen shares i) := by
  obtain ⟨hls, hle, hld, hla, hlp, hprof, hbound, hpost, hacq, htr, hperm, htok⟩ :=
    inv_of_reaches hN hr
  have hmod : s.trace.length % shares.length < shares.length :=
    Nat.mod_lt _ hN
  have hrm : M % shares.length < shares.length := Nat.mod_lt _ hN
  rcases htok with ⟨hemit, hsems⟩ | ⟨hemit, hsems, hstrict⟩
  swap
  · exact absurd (SyncStep.emit s (s.trace.length % shares.length) hmod
      (by rw [hemit, getD_set_self (by simpa using hmod)])) (hs _)
  have hdonep : s.done.getD (s.trace.length % shares.length) 0 =
      s.trace.length / shares.length := by
    simpa using hprof _ hmod
  have hnrem : ¬ (s.done.getD (s.trace.length % shares.length) 0 <
      wlen shares (s.trace.length % shares.length)) := by
    intro hrem
    exact hs _ (SyncStep.acquire s (s.trace.length % shares.length) hmod hrem
      (by rw [hemit, getD_replicate hmod])
      (by rw [hsems, oneHot_getD_self hmod]; omega))
  have hcw : blockCount M shares.length (s.trace.length % shares.length) ≤
      s.trace.length / shares.length := by
    rw [← wlen_of_counts hw hmod]
    omega
  have hub : ∀ i, i < shares.length →
      s.trace.length / shares.length + (if i < s.trace.length % shares.length then 1 else 0) ≤
      M / shares.length + (if i < M % shares.length then 1 else 0) := by
    intro i hi
    have h1 := hbound i hi
    rw [hprof i hi, wlen_of_counts hw hi] at h1
    exact h1
  have hA : s.trace.length / shares.length ≤ M / shares.length := by
    have h1 := hub (shares.length - 1) (by omega)
    rw [if_neg (by omega), if_neg (by omega)] at h1
    omega
  have hneg : ¬ (s.trace.length % shares.length < M % shares.length) := by
    intro hlt
    unfold blockCount at hcw
    rw [if_pos hlt] at hcw
    omega
  have hceq : s.trace.length / shares.length = M / shares.length := by
    unfold blockCount at hcw
    rw [if_neg hneg] at hcw
    omega
  have hpeq : s.trace.length % shares.length = M % shares.length := by
    have h3 := hub (M % shares.length) hrm
    rw [if_neg (lt_irrefl _)] at h3
    by_cases hrp : M % shares.length < s.trace.length % shares.length
    · rw [if_pos hrp] at h3
      omega
    · omega
  have htM : s.trace.length = M := by
    have e1 := Nat.div_add_mod s.trace.length shares.length
    have e2 := Nat.div_add_mod M shares.length
    have e3 : shares.length * (s.trace.length / shares.length) =
        shares.length * (M / shares.length) := by rw [hceq]
    omega
  refine ⟨htM, htM ▸ htr, hemit, hpeq ▸ htM ▸ hsems, ?_⟩
  intro i hi
  have hdone : s.done.getD i 0 = wlen shares i := by
    rw [hprof i hi, wlen_of_counts hw hi, hceq, hpeq]
    rfl
  refine ⟨hdone, (hpost i hi).trans hdone, ?_⟩
  rw [hacq i hi, hemit, getD_replicate hi]
  simpa using hdone

/-! ### The canonical trace is a prefix of the spec's rotation sequence -/

theorem le_foldrMax {w : List Nat} {x : Nat} (hx : x ∈ w) :
    x ≤ w.foldr max 0 := by
  induction w with
  | nil => cases hx
  | cons a l ih =>
    rcases List.mem_cons.mp hx with rfl | h
    · exact le_max_left _ _
    · exact le_trans (ih h) (le_max_right _ _)

theorem getD_mem {l : List β} {i : Nat} (h : i < l.length) (d : β) :
    l.getD i d ∈ l := by
  rw [List.getD_eq_getElem?_getD, List.getElem?_eq_getElem h]
  exact List.getElem_mem h

theorem range_mod_eq {N : Nat} (c : Nat) {p : Nat} (hp : p < N) :
    (List.range (c * N + p)).map (fun k => k % N) =
      (List.replicate c (List.range N)).flatten ++ List.range p := by
  induction c with
  | zero =>
    simp only [Nat.zero_mul, Nat.zero_add, List.replicate, List.flatten_nil,
      List.nil_append]
    rw [List.map_congr_left
      (fun k hk => Nat.mod_eq_of_lt (lt_trans (List.mem_range.mp hk) hp)),
      List.map_id']
  | succ c ih =>
    have h1 : (c + 1) * N + p = N + (c * N + p) := by ring
    rw [h1, List.range_add, List.map_append, List.replicate_succ,
      List.flatten_cons, List.append_assoc]
    have h2 : (List.range N).map (fun k => k % N) = List.range N := by
      rw [List.map_congr_left
        (fun k hk => Nat.mod_eq_of_lt (List.mem_range.mp hk)), List.map_id']
    have h3 : (List.map (fun x => N + x) (List.range (c * N + p))).map
        (fun k => k % N) = (List.range (c * N + p)).map (fun k => k % N) := by
      rw [List.map_map]
      exact List.map_congr_left (fun k _ => by simp [Nat.add_mod_left])
    rw [h2, h3, ih]

theorem rotSeq_decomp {w : List Nat} (hN : 1 ≤ w.length) {c p : Nat}
    (hp : p < w.length)
    (H : ∀ i, i < w.length → c + (if i < p then 1 else 0) ≤ w.getD i 0) :
    ∃ rest, rotSeq w =
      ((List.replicate c (List.range w.length)).flatten ++ List.range p) ++ rest := by
  have hmax : ∀ i, i < w.length → w.getD i 0 ≤ w.foldr max 0 :=
    fun i hi => le_foldrMax (getD_mem hi 0)
  have hc : c ≤ w.foldr max 0 := by
    have h1 := H 0 (by omega)
    have h2 := hmax 0 (by omega)
    by_cases h : 0 < p
    · rw [if_pos h] at h1; omega
    · rw [if_neg h] at h1; omega
  have hfull : ∀ r, r < c → rotRound w r = List.range w.length := by
    intro r hr
    unfold rotRound
    rw [List.filter_eq_self]
    intro i hi
    have hiN := List.mem_range.mp hi
    have h1 := H i hiN
    refine decide_eq_true ?_
    by_cases h : i < p
    · rw [if_pos h] at h1; omega
    · rw [if_neg h] at h1; omega
  have hsplit : List.range (w.foldr max 0) =
      List.range c ++ (List.range (w.foldr max 0 - c)).map (fun x => c + x) := by
    rw [← List.range_add]
    congr 1
    omega
  have hpart1 : (List.range c).map (rotRound w) =
      List.replicate c (List.range w.length) := by
    rw [List.map_congr_left (fun r hr => hfull r (List.mem_range.mp hr)),
      List.map_const', List.length_range]
  rcases Nat.eq_zero_or_pos p with rfl | hppos
  · refine ⟨((List.range (w.foldr max 0 - c)).map (fun x => c + x)).map
      (rotRound w) |>.flatten, ?_⟩
    rw [rotSeq, hsplit, List.map_append, List.flatten_append, hpart1]
    simp
  · have hcs : c + 1 ≤ w.foldr max 0 := by
      have h1 := H 0 (by omega)
      have h2 := hmax 0 (by omega)
      rw [if_pos hppos] at h1
      omega
    obtain ⟨r2, hr2⟩ : ∃ r2, rotRound w c = List.range p ++ r2 := by
      unfold rotRound
      have hsp : List.range w.length =
          List.range p ++ (List.range (w.length - p)).map (fun x => p + x) := by
        rw [← List.range_add]
        congr 1
        omega
      rw [hsp, List.filter_append]
      have hfp : List.filter (fun i => decide (c < w.getD i 0))
          (List.range p) = List.range p := by
        rw [List.filter_eq_self]
        intro i hi
        have hip := List.mem_range.mp hi
        have h1 := H i (by omega)
        rw [if_pos hip] at h1
        exact decide_eq_true (by omega)
      rw [hfp]
      exact ⟨_, rfl⟩
    have hrng : w.foldr max 0 - c = (w.foldr max 0 - c - 1) + 1 := by omega
    refine ⟨r2 ++ (((List.range (w.foldr max 0 - c - 1)).map
      (fun x => c + Nat.succ x)).map (rotRound w)).flatten, ?_⟩
    rw [rotSeq, hsplit, List.map_append, List.flatten_append, hpart1, hrng,
      List.range_succ_eq_map, List.map_cons, List.map_map, List.map_cons,
      List.flatten_cons, Nat.add_zero, hr2]
    simp [List.append_assoc, Function.comp_def]

/-- Under the rotation profile bound, the worker-id sequence
`k % N` for `k < t` is exactly the first `t` entries of the rotation
sequence the spec prescribes. -/
theorem canon_ids_take_rotSeq {w : List Nat} (hN : 1 ≤ w.length) {t : Nat}
    (H : ∀ i, i < w.length →
      t / w.length + (if i < t % w.length then 1 else 0) ≤ w.getD i 0) :
    (List.range t).map (fun k => k % w.length) = (rotSeq w).take t := by
  have hmod : t % w.length < w.length := Nat.mod_lt _ hN
  obtain ⟨rest, hrot⟩ := rotSeq_decomp hN hmod H
  have hids : (List.range t).map (fun k => k % w.length) =
      (List.replicate (t / w.length) (List.range w.length)).flatten ++
        List.range (t % w.length) := by
    have hcm : (t / w.length) * w.length = w.length * (t / w.length) :=
      Nat.mul_comm _ _
    have ht : t = (t / w.length) * w.length + t % w.length := by
      have := Nat.div_add_mod t w.length
      omega
    rw [← range_mod_eq (t / w.length) hmod, ← ht]
  rw [hrot, hids]
  have hlen : ((List.replicate (t / w.length) (List.range w.length)).flatten ++
      List.range (t % w.length)).length = t := by
    rw [List.length_append, List.length_flatten, List.map_replicate,
      List.sum_replicate, List.length_range, List.length_range, smul_eq_mul]
    have hcm : (t / w.length) * w.length = w.length * (t / w.length) :=
      Nat.mul_comm _ _
    have := Nat.div_add_mod t w.length
    omega
  have htl := List.take_left
    ((List.replicate (t / w.length) (List.range w.length)).flatten ++
      List.range (t % w.length)) rest
  rw [hlen] at htl
  exact htl.symm

/-! ### Strided partitioner lemmas -/

theorem strideAux_nil (N k : Nat) : strideAux N k ([] : List α) = [] := by
  cases k <;> rfl

theorem strideAux_length (N : Nat) (hN : 1 ≤ N) :
    ∀ (l : List α) (k : Nat),
      (strideAux N k l).length = (l.length - k + N - 1) / N := by
  intro l
  induction l with
  | nil =>
    intro k
    rw [strideAux_nil]
    have e : List.length ([] : List α) - k + N - 1 = N - 1 := by simp
    rw [e, Nat.div_eq_of_lt (by omega)]
    rfl
  | cons a l ih =>
    intro k
    cases k with
    | zero =>
      show (a :: strideAux N (N - 1) l).length = _
      rw [List.length_cons, ih (N - 1)]
      have e2 : (a :: l).length - 0 + N - 1 = l.length + N := by
        simp only [List.length_cons, Nat.sub_zero]
        omega
      rw [e2, Nat.add_div_right _ (by omega : 0 < N)]
      rcases Nat.lt_or_ge l.length (N - 1) with hL | hL
      · have e1 : l.length - (N - 1) + N - 1 = N - 1 := by omega
        rw [e1, Nat.div_eq_of_lt (by omega), Nat.div_eq_of_lt (by omega)]
      · have e1 : l.length - (N - 1) + N - 1 = l.length := by omega
        rw [e1]
    | succ k =>
      show (strideAux N k l).length = _
      rw [ih k]
      congr 1
      simp only [List.length_cons]
      omega

theorem strideAux_sublist (N : Nat) :
    ∀ (l : List α) (k : Nat), (strideAux N k l).Sublist l := by
  intro l
  induction l with
  | nil =>
    intro k
    rw [strideAux_nil]
  | cons a l ih =>
    intro k
    cases k with
    | zero => exact List.Sublist.cons₂ a (ih (N - 1))
    | succ k => exact List.Sublist.cons a (ih k)

theorem sharesStrided_length (ws : List α) (N : Nat) :
    (sharesStrided ws N).length = N := by
  simp [sharesStrided]

theorem sharesStrided_getD (ws : List α) {N i : Nat} (hi : i < N) :
    (sharesStrided ws N).getD i [] = strideAux N i ws := by
  unfold sharesStrided
  rw [getD_map_lt _ (by simpa using hi) [] 0, getD_range hi]

/-- Concatenating the strided shares in worker order is a permutation of the
original word sequence (each word at position `i + j * N` lands in share
`i`). -/
theorem flatten_strided_perm (N : Nat) (hN : 1 ≤ N) :
    ∀ ws : List α,
      (((List.range N).map (fun i => strideAux N i ws)).flatten).Perm ws := by
  intro ws
  induction ws with
  | nil =>
    rw [List.map_congr_left (fun i _ => strideAux_nil N i), List.map_const',
      List.length_range]
    have h : (List.replicate N ([] : List α)).flatten = [] := by
      rw [List.flatten_eq_nil_iff]
      intro l hl
      exact List.eq_of_mem_replicate hl
    rw [h]
  | cons a ws ih =>
    have hN1 : N = (N - 1) + 1 := by omega
    have hr : List.range N = 0 :: (List.range (N - 1)).map Nat.succ := by
      conv_lhs => rw [hN1]
      rw [List.range_succ_eq_map]
    have hr2 : List.range N = List.range (N - 1) ++ [N - 1] := by
      conv_lhs => rw [hN1]
      rw [List.range_succ]
    rw [hr, List.map_cons, List.flatten_cons, List.map_map]
    have hmt : (List.range (N - 1)).map
        ((fun i => strideAux N i (a :: ws)) ∘ Nat.succ) =
        (List.range (N - 1)).map (fun i => strideAux N i ws) :=
      List.map_congr_left (fun i _ => rfl)
    rw [hmt]
    have hih := ih
    rw [hr2, List.map_append, List.flatten_append] at hih
    show (a :: (strideAux N (N - 1) ws ++ _)).Perm (a :: ws)
    refine List.Perm.cons a ?_
    refine List.Perm.trans List.perm_append_comm ?_
    have hsing : (List.map (fun i => strideAux N i ws) [N - 1]).flatten =
        strideAux N (N - 1) ws := by simp
    rw [hsing] at hih
    exact hih

theorem sharesStrided_flatten_perm (ws : List α) {N : Nat} (hN : 1 ≤ N) :
    ((sharesStrided ws N).flatten).Perm ws :=
  flatten_strided_perm N hN ws

/-! ### Block-count arithmetic -/

theorem ceil_div_eq_blockCount {M N i : Nat} (hN : 1 ≤ N) (hi : i < N) :
    (M - i + N - 1) / N = blockCount M N i := by
  have hdm := Nat.div_add_mod M N
  have hr : M % N < N := Nat.mod_lt _ hN
  unfold blockCount
  by_cases h : i < M % N
  · rw [if_pos h]
    have e : M - i + N - 1 = ((M % N - i - 1) + N) + N * (M / N) := by omega
    rw [e, Nat.add_mul_div_left _ _ (by omega : 0 < N),
      Nat.add_div_right _ (by omega : 0 < N), Nat.div_eq_of_lt (by omega)]
    omega
  · rw [if_neg h]
    rcases Nat.lt_or_ge M i with hMi | hMi
    · have e : M - i + N - 1 = N - 1 := by omega
      rw [e, Nat.div_eq_of_lt (by omega), Nat.div_eq_of_lt (by omega : M < N)]
    · have e : M - i + N - 1 = (N - 1 - (i - M % N)) + N * (M / N) := by omega
      rw [e, Nat.add_mul_div_left _ _ (by omega : 0 < N),
        Nat.div_eq_of_lt (by omega)]
      omega

theorem sum_q_ite (q r : Nat) :
    ∀ N, ((List.range N).map (fun i => q + if i < r then 1 else 0)).sum =
      N * q + min r N := by
  intro N
  induction N with
  | zero => simp
  | succ n ih =>
    rw [List.range_succ, List.map_append, List.sum_append, ih]
    simp only [List.map_cons, List.map_nil, List.sum_cons, List.sum_nil]
    have hmul : (n + 1) * q = n * q + q := by ring
    by_cases h : n < r
    · rw [if_pos h]
      omega
    · rw [if_neg h]
      omega

theorem sum_blockCounts {M N : Nat} (hN : 1 ≤ N) :
    ((List.range N).map (blockCount M N)).sum = M := by
  have h := sum_q_ite (M / N) (M % N) N
  have hr : M % N < N := Nat.mod_lt _ hN
  have hdm := Nat.div_add_mod M N
  rw [show (List.range N).map (blockCount M N) =
    (List.range N).map (fun i => M / N + if i < M % N then 1 else 0) from rfl,
    h, Nat.min_eq_left (by omega)]
  omega

/-! ### Block partitioner lemmas -/

theorem splitByCounts_length (counts : List Nat) :
    ∀ ws : List α, (splitByCounts counts ws).length = counts.length := by
  induction counts with
  | nil => intro ws; rfl
  | cons c cs ih => intro ws; simp [splitByCounts, ih]

theorem splitByCounts_map_length :
    ∀ (counts : List Nat) (ws : List α), counts.sum ≤ ws.length →
      (splitByCounts counts ws).map List.length = counts := by
  intro counts
  induction counts with
  | nil => intro ws _; rfl
  | cons c cs ih =>
    intro ws h
    have h1 : c + cs.sum ≤ ws.length := by simpa using h
    simp only [splitByCounts, List.map_cons]
    rw [List.length_take, min_eq_left (by omega),
      ih _ (by rw [List.length_drop]; omega)]

theorem splitByCounts_flatten :
    ∀ (counts : List Nat) (ws : List α), ws.length ≤ counts.sum →
      (splitByCounts counts ws).flatten = ws := by
  intro counts
  induction counts with
  | nil =>
    intro ws h
    simp only [List.sum_nil, Nat.le_zero] at h
    rw [List.length_eq_zero.mp h]
    rfl
  | cons c cs ih =>
    intro ws h
    have h1 : ws.length ≤ c + cs.sum := by simpa using h
    simp only [splitByCounts, List.flatten_cons]
    rw [ih _ (by rw [List.length_drop]; omega), List.take_append_drop]

theorem sharesBlock_length (ws : List α) (N : Nat) :
    (sharesBlock ws N).length = N := by
  rw [sharesBlock, splitByCounts_length]
  simp

theorem sharesBlock_sizes (ws : List α) {N : Nat} (hN : 1 ≤ N) :
    (sharesBlock ws N).map List.length =
      (List.range N).map (blockCount ws.length N) :=
  splitByCounts_map_length _ _ (le_of_eq (sum_blockCounts hN))

theorem sharesBlock_flatten (ws : List α) {N : Nat} (hN : 1 ≤ N) :
    (sharesBlock ws N).flatten = ws :=
  splitByCounts_flatten _ _ (le_of_eq (sum_blockCounts hN).symm)

theorem sharesStrided_sizes (ws : List α) {N : Nat} (hN : 1 ≤ N) :
    (sharesStrided ws N).map List.length =
      (List.range N).map (blockCount ws.length N) := by
  unfold sharesStrided
  rw [List.map_map]
  apply List.map_congr_left
  intro i hi
  have hiN := List.mem_range.mp hi
  show (strideAux N i ws).length = blockCount ws.length N i
  rw [strideAux_length N hN ws i, ceil_div_eq_blockCount hN hiN]

/-- Every entry of a list of lists is a contiguous slice of the
concatenation: drop the lengths of the earlier entries, take its own. -/
theorem flatten_getD_slice :
    ∀ (L : List (List α)) (i : Nat),
      L.getD i [] = (L.flatten.drop (((L.take i).map List.length).sum)).take
        (L.getD i []).length := by
  intro L
  induction L with
  | nil => intro i; cases i <;> simp
  | cons l Ls ih =>
    intro i
    cases i with
    | zero =>
      simp only [List.getD_cons_zero, List.take_zero, List.map_nil,
        List.sum_nil, List.drop_zero, List.flatten_cons]
      rw [List.take_left]
    | succ i =>
      simp only [List.getD_cons_succ, List.take_succ_cons, List.map_cons,
        List.sum_cons, List.flatten_cons]
      have hd : ∀ s : Nat, (l ++ Ls.flatten).drop (l.length + s) =
          Ls.flatten.drop s := by
        intro s
        rw [← List.drop_drop, List.drop_left]
      rw [hd]
      exact ih i

/-! ### Emitted words of a completed run -/

theorem range_map_getD (l : List β) (d : β) :
    (List.range l.length).map (fun i => l.getD i d) = l := by
  induction l with
  | nil => rfl
  | cons a l ih =>
    rw [List.length_cons, List.range_succ_eq_map, List.map_cons, List.map_map]
    have h2 : (List.range l.length).map
        ((fun i => (a :: l).getD i d) ∘ Nat.succ) =
        (List.range l.length).map (fun i => l.getD i d) :=
      List.map_congr_left (fun i _ => List.getD_cons_succ)
    rw [h2, ih]
    rfl

/-- When every worker has consumed its whole share, the words it has
emitted, concatenated by worker, are precisely all the words. -/
theorem taggedTake_full_snd (shares : List (List α)) (d : List Nat)
    (hd : ∀ i, i < shares.length → d.getD i 0 = wlen shares i) :
    (taggedTake shares d).map Prod.snd = shares.flatten := by
  unfold taggedTake
  rw [List.map_flatten, List.map_map]
  have h1 : ∀ i ∈ List.range shares.length,
      (List.map Prod.snd ∘ fun i =>
        ((shares.getD i []).take (d.getD i 0)).map (fun x => (i, x))) i =
      shares.getD i [] := by
    intro i hi
    have hiN := List.mem_range.mp hi
    show (((shares.getD i []).take (d.getD i 0)).map
      (fun x => (i, x))).map Prod.snd = shares.getD i []
    rw [List.map_map, hd i hiN, wlen, List.take_length]
    have h2 : (shares.getD i []).map (Prod.snd ∘ fun x => (i, x)) =
        (shares.getD i []).map (fun x => x) :=
      List.map_congr_left (fun x _ => rfl)
    rw [h2, List.map_id']
  rw [List.map_congr_left h1]
  congr 1
  exact range_map_getD shares []

theorem taggedTake_length_le (shares : List (List α)) (d : List Nat) :
    (taggedTake shares d).length ≤ (shares.map List.length).sum := by
  unfold taggedTake
  rw [List.length_flatten, List.map_map]
  have hR : shares.map List.length =
      (List.range shares.length).map (fun i => wlen shares i) := by
    have h0 := range_map_getD (shares.map List.length) 0
    rw [List.length_map] at h0
    rw [← h0]
    apply List.map_congr_left
    intro i hi
    rw [getD_map_lt List.length (List.mem_range.mp hi) 0 []]
    rfl
  rw [hR]
  apply List.sum_le_sum
  intro i _
  show (((shares.getD i []).take (d.getD i 0)).map (fun x => (i, x))).length ≤
    wlen shares i
  rw [List.length_map, List.length_take, wlen]
  omega

/-! ### Chaos-run invariant -/

/-- Invariant of a chaos run: loop indices within bounds, and the trace is a
permutation of the words each worker has consumed so far. -/
def ChaosInv [Inhabited α] (shares : List (List α)) (s : ChaosState α) : Prop :=
  s.done.length = shares.length ∧
  (∀ i, i < shares.length → s.done.getD i 0 ≤ wlen shares i) ∧
  s.trace.Perm (taggedTake shares s.done)

theorem chaosInv_init [Inhabited α] (shares : List (List α)) :
    ChaosInv shares (initChaos α shares.length) := by
  refine ⟨by simp [initChaos], ?_, ?_⟩
  · intro i hi
    simp [initChaos, getD_replicate hi]
  · show List.Perm [] (taggedTake shares (List.replicate shares.length 0))
    rw [taggedTake_init]

theorem chaosInv_step [Inhabited α] {shares : List (List α)}
    {s s' : ChaosState α} (hinv : ChaosInv shares s)
    (hstep : ChaosStep shares s s') : ChaosInv shares s' := by
  obtain ⟨hld, hbound, hperm⟩ := hinv
  cases hstep with
  | emit i hi hrem =>
    refine ⟨by simpa using hld, ?_, ?_⟩
    · intro j hj
      have hjd : j < s.done.length := by omega
      rcases eq_or_ne j i with heq | hne
      · rw [heq, getD_set_self (heq ▸ hjd)]
        exact hrem
      · rw [getD_set_ne (fun h => hne h.symm)]
        exact hbound j hj
    · refine (List.Perm.append_right _ hperm).trans ?_
      exact (taggedTake_set_perm shares s.done i hi (by omega) hrem).symm

theorem chaosInv_of_reaches [Inhabited α] {shares : List (List α)}
    {s : ChaosState α} (h : ChaosReaches shares s) : ChaosInv shares s := by
  induction h with
  | refl => exact chaosInv_init shares
  | tail _ hstep ih => exact chaosInv_step ih hstep

/-- A stuck chaos run has emitted every word exactly once: the multiset of
emitted words equals the multiset of all assigned words. -/
theorem chaos_stuck_perm [Inhabited α] {shares : List (List α)}
    {s : ChaosState α} (hr : ChaosReaches shares s) (hs : ChaosStuck shares s) :
    (s.trace.map Prod.snd).Perm shares.flatten := by
  obtain ⟨hld, hbound, hperm⟩ := chaosInv_of_reaches hr
  have hfull : ∀ i, i < shares.length → s.done.getD i 0 = wlen shares i := by
    intro i hi
    rcases Nat.lt_or_ge (s.done.getD i 0) (wlen shares i) with hlt | hge
    · exact absurd (ChaosStep.emit s i hi hlt) (hs _)
    · have := hbound i hi
      omega
  have h1 := List.Perm.map Prod.snd hperm
  rw [taggedTake_full_snd shares s.done hfull] at h1
  exact h1

/-! ### Measure: synchronized runs take finitely many steps -/

/-- Each step of a synchronized run increases the execution measure
(two units per printed word, one while a worker is inside its critical
section) by exactly one. -/
theorem syncStep_measure [Inhabited α] {shares : List (List α)}
    (hN : 1 ≤ shares.length) {s s' : RunState α} (hinv : Inv shares s)
    (hstep : SyncStep shares s s') :
    2 * s'.trace.length +
      (if s'.emitting = List.replicate shares.length false then 0 else 1) =
    2 * s.trace.length +
      (if s.emitting = List.replicate shares.length false then 0 else 1) + 1 := by
  obtain ⟨hls, hle, hld, hla, hlp, hprof, hbound, hpost, hacq, htr, hperm, htok⟩ :=
    hinv
  have hmod : s.trace.length % shares.length < shares.length :=
    Nat.mod_lt _ hN
  cases hstep with
  | acquire i hi hrem hidle hsem =>
    rcases htok with ⟨hemit, hsems⟩ | ⟨hemit, hsems, _⟩
    · have hbefore : s.emitting = List.replicate shares.length false := hemit
      have hafter : ¬ (s.emitting.set i true =
          List.replicate shares.length false) := by
        intro hcon
        have := congrArg (fun l => l.getD i false) hcon
        simp only at this
        rw [getD_set_self (by omega : i < s.emitting.length),
          getD_replicate hi] at this
        cases this
      rw [if_pos hbefore, if_neg hafter]
    · rw [hsems, getD_replicate hi] at hsem
      omega
  | emit i hi hbusy =>
    rcases htok with ⟨hemit, hsems⟩ | ⟨hemit, hsems, hstrict⟩
    · rw [hemit, getD_replicate hi] at hbusy
      cases hbusy
    · have hip : i = s.trace.length % shares.length := by
        by_contra hne
        rw [hemit, getD_set_ne (fun h => hne h.symm), getD_replicate hi] at hbusy
        cases hbusy
      have hbefore : ¬ (s.emitting = List.replicate shares.length false) := by
        intro hcon
        rw [hcon, getD_replicate hi] at hbusy
        cases hbusy
      have hafter : s.emitting.set i false =
          List.replicate shares.length false := by
        rw [hemit, hip, List.set_set, set_replicate_self]
      rw [if_neg hbefore, if_pos hafter]
      simp only [List.length_append, List.length_cons, List.length_nil]
      omega

/-- A synchronized run over balanced shares cannot take infinitely many
steps: no infinite step sequence starts at the initial state. -/
theorem no_infinite_run [Inhabited α] {shares : List (List α)} {M : Nat}
    (hN : 1 ≤ shares.length)
    (hw : shares.map List.length =
      (List.range shares.length).map (blockCount M shares.length)) :
    ¬ ∃ f : Nat → RunState α, f 0 = initState α shares.length ∧
      ∀ n, SyncStep shares (f n) (f (n + 1)) := by
  rintro ⟨f, h0, hstep⟩
  have hreach : ∀ n, Reaches shares (f n) := by
    intro n
    induction n with
    | zero =>
      rw [h0]
      exact Relation.ReflTransGen.refl
    | succ n ih => exact ih.tail (hstep n)
  have hm : ∀ n, 2 * (f n).trace.length +
      (if (f n).emitting = List.replicate shares.length false then 0 else 1) =
      n := by
    intro n
    induction n with
    | zero =>
      rw [h0]
      simp [initState]
    | succ n ih =>
      rw [syncStep_measure hN (inv_of_reaches hN (hreach n)) (hstep n), ih]
  have hb : ∀ n, (f n).trace.length ≤ M := by
    intro n
    obtain ⟨_, _, _, _, _, _, _, _, _, _, hperm, _⟩ :=
      inv_of_reaches hN (hreach n)
    have h1 := hperm.length_eq
    have h2 := taggedTake_length_le shares (f n).done
    rw [hw, sum_blockCounts hN] at h2
    omega
  have hval := hm (2 * M + 2)
  have hbb := hb (2 * M + 2)
  by_cases hc : (f (2 * M + 2)).emitting = List.replicate shares.length false
  · rw [if_pos hc] at hval
    omega
  · rw [if_neg hc] at hval
    omega

/-! ### Supporting lemmas for the claim theorems -/

theorem sharesStrided_getD_length (ws : List α) {N i : Nat} (hN : 1 ≤ N)
    (hi : i < N) :
    ((sharesStrided ws N).getD i []).length = blockCount ws.length N i := by
  rw [sharesStrided_getD ws hi, strideAux_length N hN ws i,
    ceil_div_eq_blockCount hN hi]

theorem sharesBlock_getD_length (ws : List α) {N i : Nat} (hN : 1 ≤ N)
    (hi : i < N) :
    ((sharesBlock ws N).getD i []).length = blockCount ws.length N i := by
  have h := sharesBlock_sizes ws hN
  have h1 : ((sharesBlock ws N).map List.length).getD i 0 =
      ((sharesBlock ws N).getD i []).length := by
    rw [getD_map_lt List.length (by rw [sharesBlock_length]; omega) 0 []]
  have h2 : ((List.range N).map (blockCount ws.length N)).getD i 0 =
      blockCount ws.length N i := by
    rw [getD_map_lt _ (by simpa using hi) 0 0, getD_range hi]
  rw [← h1, h, h2]

theorem sharesStrided_counts (ws : List α) {N : Nat} (hN : 1 ≤ N) :
    (sharesStrided ws N).map List.length =
      (List.range (sharesStrided ws N).length).map
        (blockCount ws.length (sharesStrided ws N).length) := by
  rw [sharesStrided_length]
  exact sharesStrided_sizes ws hN

theorem sharesBlock_counts (ws : List α) {N : Nat} (hN : 1 ≤ N) :
    (sharesBlock ws N).map List.length =
      (List.range (sharesBlock ws N).length).map
        (blockCount ws.length (sharesBlock ws N).length) := by
  rw [sharesBlock_length]
  exact sharesBlock_sizes ws hN

/-- A stuck synchronized run over balanced shares has emitted, as a
multiset, exactly all the assigned words. -/
theorem sync_stuck_perm [Inhabited α] {shares : List (List α)} {M : Nat}
    (hN : 1 ≤ shares.length)
    (hw : shares.map List.length =
      (List.range shares.length).map (blockCount M shares.length))
    {s : RunState α} (hr : Reaches shares s) (hs : Stuck shares s) :
    (s.trace.map Prod.snd).Perm shares.flatten := by
  obtain ⟨_, _, _, _, _, _, _, _, _, _, hperm, _⟩ := inv_of_reaches hN hr
  obtain ⟨_, _, _, _, h5⟩ := stuck_complete hN hw hr hs
  have h1 := List.Perm.map Prod.snd hperm
  rw [taggedTake_full_snd shares s.done (fun i hi => (h5 i hi).1)] at h1
  exact h1

theorem oneHot_eq_zero_iff {N r : Nat} (hr : r < N) :
    oneHot N r = oneHot N 0 ↔ r = 0 := by
  constructor
  · intro h
    by_contra hne
    have hc := congrArg (fun l => l.getD r 0) h
    simp only at hc
    rw [oneHot_getD_self hr, oneHot_getD_ne hne] at hc
    cases hc
  · rintro rfl
    rfl

/-! ## Claim theorems -/

/-- C1 (confirmed). In synchronized mode, for every run with `N ≥ 1`
workers and any share sizes, at every reachable instant at most one worker
is inside its critical emit step, and the worker ids recorded at the emit
steps performed so far equal `0,1,...,N-1,0,1,...` — a worker id dropping
out of the rotation once its share is exhausted — truncated to the number
of emitted steps (the first `trace.length` entries of `rotSeq`). -/
theorem C1_rotation_law [Inhabited α] (shares : List (List α))
    (hN : 1 ≤ shares.length) {s : RunState α} (hr : Reaches shares s) :
    (∀ i j, i < shares.length → j < shares.length →
      s.emitting.getD i false = true → s.emitting.getD j false = true →
      i = j) ∧
    s.trace.map Prod.fst =
      (rotSeq (shares.map List.length)).take s.trace.length := by
  obtain ⟨hls, hle, hld, hla, hlp, hprof, hbound, hpost, hacq, htr, hperm, htok⟩ :=
    inv_of_reaches hN hr
  constructor
  · intro i j hi hj hei hej
    rcases htok with ⟨hemit, _⟩ | ⟨hemit, _, _⟩
    · rw [hemit, getD_replicate hi] at hei
      cases hei
    · have hp : ∀ k, k < shares.length → s.emitting.getD k false = true →
          k = s.trace.length % shares.length := by
        intro k hk he
        by_contra hne
        rw [hemit, getD_set_ne (fun h => hne h.symm), getD_replicate hk] at he
        cases he
      rw [hp i hi hei, hp j hj hej]
  · have hmap : s.trace.map Prod.fst =
        (List.range s.trace.length).map (fun k => k % shares.length) := by
      conv_lhs => rw [htr]
      exact canonTrace_map_fst shares s.trace.length
    have H : ∀ i, i < (shares.map List.length).length →
        s.trace.length / (shares.map List.length).length +
          (if i < s.trace.length % (shares.map List.length).length
            then 1 else 0) ≤ (shares.map List.length).getD i 0 := by
      intro i hiw
      rw [List.length_map] at hiw
      simp only [List.length_map]
      have h1 := hbound i hiw
      rw [hprof i hiw] at h1
      have h2 : (shares.map List.length).getD i 0 = wlen shares i := by
        rw [getD_map_lt List.length hiw 0 []]
        rfl
      rw [h2]
      exact h1
    have hres := canon_ids_take_rotSeq (by simpa using hN) H
    simp only [List.length_map] at hres
    rw [hmap, hres]

/-- C1 witness: the initial state of a one-worker run. -/
theorem C1_rotation_law_witness :
    (∀ i j, i < ([[0]] : List (List Nat)).length →
      j < ([[0]] : List (List Nat)).length →
      (initState Nat ([[0]] : List (List Nat)).length).emitting.getD i false =
        true →
      (initState Nat ([[0]] : List (List Nat)).length).emitting.getD j false =
        true → i = j) ∧
    (initState Nat ([[0]] : List (List Nat)).length).trace.map Prod.fst =
      (rotSeq (([[0]] : List (List Nat)).map List.length)).take
        (initState Nat ([[0]] : List (List Nat)).length).trace.length :=
  C1_rotation_law [[0]] (by decide) Relation.ReflTransGen.refl

/-- C2 (confirmed). Both partitioners produce exactly `N` shares, each of
size `M / N` or `M / N + 1`, the first `M mod N` workers getting the extra
word, the sizes summing to `M`; both are total functions, so `M < N` and
`M = 0` are covered by the general statement. -/
theorem C2_partition_sizes (ws : List α) (N : Nat) (hN : 1 ≤ N) :
    (sharesStrided ws N).length = N ∧
    (sharesBlock ws N).length = N ∧
    (∀ i, i < N → ((sharesStrided ws N).getD i []).length =
      ws.length / N + (if i < ws.length % N then 1 else 0)) ∧
    (∀ i, i < N → ((sharesBlock ws N).getD i []).length =
      ws.length / N + (if i < ws.length % N then 1 else 0)) ∧
    ((sharesStrided ws N).map List.length).sum = ws.length ∧
    ((sharesBlock ws N).map List.length).sum = ws.length ∧
    (∀ i, i < N → ((sharesStrided ws N).getD i []).length = ws.length / N ∨
      ((sharesStrided ws N).getD i []).length = ws.length / N + 1) ∧
    (∀ i, i < N → ((sharesBlock ws N).getD i []).length = ws.length / N ∨
      ((sharesBlock ws N).getD i []).length = ws.length / N + 1) := by
  refine ⟨sharesStrided_length ws N, sharesBlock_length ws N, ?_, ?_, ?_, ?_,
    ?_, ?_⟩
  · intro i hi
    rw [sharesStrided_getD_length ws hN hi]
    rfl
  · intro i hi
    rw [sharesBlock_getD_length ws hN hi]
    rfl
  · rw [sharesStrided_sizes ws hN, sum_blockCounts hN]
  · rw [sharesBlock_sizes ws hN, sum_blockCounts hN]
  · intro i hi
    rw [sharesStrided_getD_length ws hN hi]
    unfold blockCount
    by_cases h : i < ws.length % N
    · rw [if_pos h]
      right
      rfl
    · rw [if_neg h]
      left
      omega
  · intro i hi
    rw [sharesBlock_getD_length ws hN hi]
    unfold blockCount
    by_cases h : i < ws.length % N
    · rw [if_pos h]
      right
      rfl
    · rw [if_neg h]
      left
      omega

/-- C2 witness: one word shared among two workers (`M < N`). -/
theorem C2_partition_sizes_witness :
    (sharesStrided ["a"] 2).length = 2 ∧
    (sharesBlock ["a"] 2).length = 2 ∧
    (∀ i, i < 2 → ((sharesStrided ["a"] 2).getD i []).length =
      (["a"] : List String).length / 2 +
        (if i < (["a"] : List String).length % 2 then 1 else 0)) ∧
    (∀ i, i < 2 → ((sharesBlock ["a"] 2).getD i []).length =
      (["a"] : List String).length / 2 +
        (if i < (["a"] : List String).length % 2 then 1 else 0)) ∧
    ((sharesStrided ["a"] 2).map List.length).sum =
      (["a"] : List String).length ∧
    ((sharesBlock ["a"] 2).map List.length).sum =
      (["a"] : List String).length ∧
    (∀ i, i < 2 → ((sharesStrided ["a"] 2).getD i []).length =
      (["a"] : List String).length / 2 ∨
      ((sharesStrided ["a"] 2).getD i []).length =
        (["a"] : List String).length / 2 + 1) ∧
    (∀ i, i < 2 → ((sharesBlock ["a"] 2).getD i []).length =
      (["a"] : List String).length / 2 ∨
      ((sharesBlock ["a"] 2).getD i []).length =
        (["a"] : List String).length / 2 + 1) :=
  C2_partition_sizes ["a"] 2 (by decide)

/-- C3 counterexample. For the strided partitioner (the variant with
`for (j = i; j < total_words; j += NUM_THREADS)`), concatenating the shares
in worker order does not reproduce the original sequence: for the four
words and two workers it yields alpha, gamma, beta, delta. -/
theorem C3_counterexample :
    (sharesStrided ["alpha", "beta", "gamma", "delta"] 2).flatten ≠
      ["alpha", "beta", "gamma", "delta"] := by
  decide

/-- C3 (corrected). The block partitioner satisfies the claim in full: its
shares are contiguous order-preserving slices and concatenating them in
worker order reproduces the original sequence. The strided partitioner
still distributes every word to exactly one share, each share preserving
the original relative order (it is an order-preserving subsequence), and
the concatenation in worker order is a permutation of the original
sequence — but its shares are strided, not contiguous, so the
concatenation need not equal the original (see the counterexample). -/
theorem C3_partition_order (ws : List α) (N : Nat) (hN : 1 ≤ N) :
    (sharesBlock ws N).flatten = ws ∧
    (∀ i, i < N → ∃ off, (sharesBlock ws N).getD i [] =
      (ws.drop off).take ((sharesBlock ws N).getD i []).length) ∧
    (∀ i, i < N → ((sharesStrided ws N).getD i []).Sublist ws) ∧
    ((sharesStrided ws N).flatten).Perm ws := by
  refine ⟨sharesBlock_flatten ws hN, ?_, ?_, sharesStrided_flatten_perm ws hN⟩
  · intro i hi
    refine ⟨(((sharesBlock ws N).take i).map List.length).sum, ?_⟩
    have h := flatten_getD_slice (sharesBlock ws N) i
    rw [sharesBlock_flatten ws hN] at h
    exact h
  · intro i hi
    rw [sharesStrided_getD ws hi]
    exact strideAux_sublist N ws i

/-- C3 witness: the end-to-end example words with two workers. -/
theorem C3_partition_order_witness :
    (sharesBlock ["alpha", "beta", "gamma", "delta"] 2).flatten =
      ["alpha", "beta", "gamma", "delta"] ∧
    (∀ i, i < 2 → ∃ off,
      (sharesBlock ["alpha", "beta", "gamma", "delta"] 2).getD i [] =
      ((["alpha", "beta", "gamma", "delta"].drop off)).take
        ((sharesBlock ["alpha", "beta", "gamma", "delta"] 2).getD i []).length) ∧
    (∀ i, i < 2 →
      ((sharesStrided ["alpha", "beta", "gamma", "delta"] 2).getD i []).Sublist
        ["alpha", "beta", "gamma", "delta"]) ∧
    ((sharesStrided ["alpha", "beta", "gamma", "delta"] 2).flatten).Perm
      ["alpha", "beta", "gamma", "delta"] :=
  C3_partition_order ["alpha", "beta", "gamma", "delta"] 2 (by decide)

/-- C4 counterexample. The block partitioner does not produce the shares
the claim names: with four words and two workers its worker 0 gets
alpha, beta (not alpha, gamma). -/
theorem C4_counterexample :
    sharesBlock ["alpha", "beta", "gamma", "delta"] 2 ≠
      [["alpha", "gamma"], ["beta", "delta"]] := by
  decide

/-- C4 (corrected). For the strided partitioner the claim holds exactly:
shares are worker0 = [alpha, gamma], worker1 = [beta, delta], and every
completed synchronized run emits alpha, beta, gamma, delta. The block
partitioner instead yields worker0 = [alpha, beta], worker1 =
[gamma, delta], and its completed synchronized runs emit alpha, gamma,
beta, delta. Completed runs of both kinds exist. -/
theorem C4_end_to_end :
    sharesStrided ["alpha", "beta", "gamma", "delta"] 2 =
      [["alpha", "gamma"], ["beta", "delta"]] ∧
    sharesBlock ["alpha", "beta", "gamma", "delta"] 2 =
      [["alpha", "beta"], ["gamma", "delta"]] ∧
    (∀ s : RunState String,
      Reaches (sharesStrided ["alpha", "beta", "gamma", "delta"] 2) s →
      Stuck (sharesStrided ["alpha", "beta", "gamma", "delta"] 2) s →
      s.trace.map Prod.snd = ["alpha", "beta", "gamma", "delta"]) ∧
    (∀ s : RunState String,
      Reaches (sharesBlock ["alpha", "beta", "gamma", "delta"] 2) s →
      Stuck (sharesBlock ["alpha", "beta", "gamma", "delta"] 2) s →
      s.trace.map Prod.snd = ["alpha", "gamma", "beta", "delta"]) ∧
    (∃ s : RunState String,
      Reaches (sharesStrided ["alpha", "beta", "gamma", "delta"] 2) s ∧
      Stuck (sharesStrided ["alpha", "beta", "gamma", "delta"] 2) s) ∧
    (∃ s : RunState String,
      Reaches (sharesBlock ["alpha", "beta", "gamma", "delta"] 2) s ∧
      Stuck (sharesBlock ["alpha", "beta", "gamma", "delta"] 2) s) := by
  refine ⟨by decide, by decide, ?_, ?_, ?_, ?_⟩
  · intro s hr hs
    obtain ⟨_, htr, _, _, _⟩ := stuck_complete (by decide)
      (by decide : (sharesStrided ["alpha", "beta", "gamma", "delta"] 2).map
        List.length = (List.range
          (sharesStrided ["alpha", "beta", "gamma", "delta"] 2).length).map
          (blockCount 4
            (sharesStrided ["alpha", "beta", "gamma", "delta"] 2).length))
      hr hs
    rw [htr]
    decide
  · intro s hr hs
    obtain ⟨_, htr, _, _, _⟩ := stuck_complete (by decide)
      (by decide : (sharesBlock ["alpha", "beta", "gamma", "delta"] 2).map
        List.length = (List.range
          (sharesBlock ["alpha", "beta", "gamma", "delta"] 2).length).map
          (blockCount 4
            (sharesBlock ["alpha", "beta", "gamma", "delta"] 2).length))
      hr hs
    rw [htr]
    decide
  · refine ⟨⟨[1, 0], [false, false], [2, 2], [2, 2], [2, 2],
      [(0, "alpha"), (1, "beta"), (0, "gamma"), (1, "delta")]⟩, ?_, ?_⟩
    · refine Relation.ReflTransGen.head
        (SyncStep.acquire _ 0 (by decide) (by decide) (by decide) (by decide)) ?_
      refine Relation.ReflTransGen.head
        (SyncStep.emit _ 0 (by decide) (by decide)) ?_
      refine Relation.ReflTransGen.head
        (SyncStep.acquire _ 1 (by decide) (by decide) (by decide) (by decide)) ?_
      refine Relation.ReflTransGen.head
        (SyncStep.emit _ 1 (by decide) (by decide)) ?_
      refine Relation.ReflTransGen.head
        (SyncStep.acquire _ 0 (by decide) (by decide) (by decide) (by decide)) ?_
      refine Relation.ReflTransGen.head
        (SyncStep.emit _ 0 (by decide) (by decide)) ?_
      refine Relation.ReflTransGen.head
        (SyncStep.acquire _ 1 (by decide) (by decide) (by decide) (by decide)) ?_
      refine Relation.ReflTransGen.head
        (SyncStep.emit _ 1 (by decide) (by decide)) ?_
      exact Relation.ReflTransGen.refl
    · intro s' hstep
      cases hstep with
      | acquire i hi hrem hidle hsem =>
        rw [sharesStrided_length] at hi
        interval_cases i <;> exact absurd hrem (by decide)
      | emit i hi hbusy =>
        rw [sharesStrided_length] at hi
        interval_cases i <;> exact absurd hbusy (by decide)
  · refine ⟨⟨[1, 0], [false, false], [2, 2], [2, 2], [2, 2],
      [(0, "alpha"), (1, "gamma"), (0, "beta"), (1, "delta")]⟩, ?_, ?_⟩
    · refine Relation.ReflTransGen.head
        (SyncStep.acquire _ 0 (by decide) (by decide) (by decide) (by decide)) ?_
      refine Relation.ReflTransGen.head
        (SyncStep.emit _ 0 (by decide) (by decide)) ?_
      refine Relation.ReflTransGen.head
        (SyncStep.acquire _ 1 (by decide) (by decide) (by decide) (by decide)) ?_
      refine Relation.ReflTransGen.head
        (SyncStep.emit _ 1 (by decide) (by decide)) ?_
      refine Relation.ReflTransGen.head
        (SyncStep.acquire _ 0 (by decide) (by decide) (by decide) (by decide)) ?_
      refine Relation.ReflTransGen.head
        (SyncStep.emit _ 0 (by decide) (by decide)) ?_
      refine Relation.ReflTransGen.head
        (SyncStep.acquire _ 1 (by decide) (by decide) (by decide) (by decide)) ?_
      refine Relation.ReflTransGen.head
        (SyncStep.emit _ 1 (by decide) (by decide)) ?_
      exact Relation.ReflTransGen.refl
    · intro s' hstep
      cases hstep with
      | acquire i hi hrem hidle hsem =>
        rw [sharesBlock_length] at hi
        interval_cases i <;> exact absurd hrem (by decide)
      | emit i hi hbusy =>
        rw [sharesBlock_length] at hi
        interval_cases i <;> exact absurd hbusy (by decide)

/-- C5 (confirmed). `init_semaphores` arms gate 0 with count 1 and leaves
every other gate at 0, and `reset_semaphores` — destroy followed by a fresh
`init_semaphores` — reproduces exactly that initial configuration whatever
counts the previous run, in either mode, left behind. -/
theorem C5_ring_reset (N : Nat) (hN : 1 ≤ N) (prev : List Nat) :
    (init_semaphores N).getD 0 0 = 1 ∧
    (∀ i, 1 ≤ i → i < N → (init_semaphores N).getD i 0 = 0) ∧
    reset_semaphores N prev = init_semaphores N := by
  refine ⟨?_, ?_, rfl⟩
  · rw [init_semaphores_eq_oneHot]
    exact oneHot_getD_self hN
  · intro i h1 _
    rw [init_semaphores_eq_oneHot]
    exact oneHot_getD_ne (by omega)

/-- C5 witness: the five-gate ring of the program, reset after a run left
arbitrary counts behind. -/
theorem C5_ring_reset_witness :
    (init_semaphores 5).getD 0 0 = 1 ∧
    (∀ i, 1 ≤ i → i < 5 → (init_semaphores 5).getD i 0 = 0) ∧
    reset_semaphores 5 [0, 3, 0, 0, 2] = init_semaphores 5 :=
  C5_ring_reset 5 (by decide) [0, 3, 0, 0, 2]

/-- C6 (confirmed). For every word list and every `N ≥ 1`, under either
partitioner, a synchronized run admits no infinite step sequence, and
whenever it can take no further step every worker has processed its whole
share — with exactly one `sem_post` of its next gate per word, last word
included — so all `M` words are out and the join of all workers completes. -/
theorem C6_sync_termination [Inhabited α] (ws : List α) (N : Nat)
    (hN : 1 ≤ N) :
    ((¬ ∃ f : Nat → RunState α,
        f 0 = initState α (sharesStrided ws N).length ∧
        ∀ n, SyncStep (sharesStrided ws N) (f n) (f (n + 1))) ∧
      ∀ s : RunState α, Reaches (sharesStrided ws N) s →
        Stuck (sharesStrided ws N) s →
        s.trace.length = ws.length ∧
        ∀ i, i < N → s.done.getD i 0 = wlen (sharesStrided ws N) i ∧
          s.post.getD i 0 = wlen (sharesStrided ws N) i) ∧
    ((¬ ∃ f : Nat → RunState α,
        f 0 = initState α (sharesBlock ws N).length ∧
        ∀ n, SyncStep (sharesBlock ws N) (f n) (f (n + 1))) ∧
      ∀ s : RunState α, Reaches (sharesBlock ws N) s →
        Stuck (sharesBlock ws N) s →
        s.trace.length = ws.length ∧
        ∀ i, i < N → s.done.getD i 0 = wlen (sharesBlock ws N) i ∧
          s.post.getD i 0 = wlen (sharesBlock ws N) i) := by
  have hNs : 1 ≤ (sharesStrided ws N).length := by
    rw [sharesStrided_length]
    omega
  have hNb : 1 ≤ (sharesBlock ws N).length := by
    rw [sharesBlock_length]
    omega
  refine ⟨⟨no_infinite_run hNs (sharesStrided_counts ws hN), ?_⟩,
    ⟨no_infinite_run hNb (sharesBlock_counts ws hN), ?_⟩⟩
  · intro s hr hs
    obtain ⟨h1, _, _, _, h5⟩ :=
      stuck_complete hNs (sharesStrided_counts ws hN) hr hs
    refine ⟨h1, ?_⟩
    intro i hi
    have hi2 : i < (sharesStrided ws N).length := by
      rw [sharesStrided_length]
      omega
    exact ⟨(h5 i hi2).1, (h5 i hi2).2.1⟩
  · intro s hr hs
    obtain ⟨h1, _, _, _, h5⟩ :=
      stuck_complete hNb (sharesBlock_counts ws hN) hr hs
    refine ⟨h1, ?_⟩
    intro i hi
    have hi2 : i < (sharesBlock ws N).length := by
      rw [sharesBlock_length]
      omega
    exact ⟨(h5 i hi2).1, (h5 i hi2).2.1⟩

/-- C6 witness: two words, two workers. -/
theorem C6_sync_termination_witness :
    ((¬ ∃ f : Nat → RunState String,
        f 0 = initState String (sharesStrided ["a", "b"] 2).length ∧
        ∀ n, SyncStep (sharesStrided ["a", "b"] 2) (f n) (f (n + 1))) ∧
      ∀ s : RunState String, Reaches (sharesStrided ["a", "b"] 2) s →
        Stuck (sharesStrided ["a", "b"] 2) s →
        s.trace.length = (["a", "b"] : List String).length ∧
        ∀ i, i < 2 → s.done.getD i 0 = wlen (sharesStrided ["a", "b"] 2) i ∧
          s.post.getD i 0 = wlen (sharesStrided ["a", "b"] 2) i) ∧
    ((¬ ∃ f : Nat → RunState String,
        f 0 = initState String (sharesBlock ["a", "b"] 2).length ∧
        ∀ n, SyncStep (sharesBlock ["a", "b"] 2) (f n) (f (n + 1))) ∧
      ∀ s : RunState String, Reaches (sharesBlock ["a", "b"] 2) s →
        Stuck (sharesBlock ["a", "b"] 2) s →
        s.trace.length = (["a", "b"] : List String).length ∧
        ∀ i, i < 2 → s.done.getD i 0 = wlen (sharesBlock ["a", "b"] 2) i ∧
          s.post.getD i 0 = wlen (sharesBlock ["a", "b"] 2) i) :=
  C6_sync_termination ["a", "b"] 2 (by decide)

/-- C7 (confirmed). In either mode and under either partitioner, a run that
can take no further step has emitted each word exactly once: the multiset
of emitted words equals the multiset of input words. (In chaos mode this is
the only guarantee — the trace order is whatever interleaving occurred.) -/
theorem C7_exactly_once [Inhabited α] (ws : List α) (N : Nat) (hN : 1 ≤ N) :
    (∀ s : RunState α, Reaches (sharesStrided ws N) s →
      Stuck (sharesStrided ws N) s → (s.trace.map Prod.snd).Perm ws) ∧
    (∀ s : RunState α, Reaches (sharesBlock ws N) s →
      Stuck (sharesBlock ws N) s → (s.trace.map Prod.snd).Perm ws) ∧
    (∀ s : ChaosState α, ChaosReaches (sharesStrided ws N) s →
      ChaosStuck (sharesStrided ws N) s → (s.trace.map Prod.snd).Perm ws) ∧
    (∀ s : ChaosState α, ChaosReaches (sharesBlock ws N) s →
      ChaosStuck (sharesBlock ws N) s → (s.trace.map Prod.snd).Perm ws) := by
  have hNs : 1 ≤ (sharesStrided ws N).length := by
    rw [sharesStrided_length]
    omega
  have hNb : 1 ≤ (sharesBlock ws N).length := by
    rw [sharesBlock_length]
    omega
  refine ⟨?_, ?_, ?_, ?_⟩
  · intro s hr hs
    exact (sync_stuck_perm hNs (sharesStrided_counts ws hN) hr hs).trans
      (sharesStrided_flatten_perm ws hN)
  · intro s hr hs
    have h := sync_stuck_perm hNb (sharesBlock_counts ws hN) hr hs
    rw [sharesBlock_flatten ws hN] at h
    exact h
  · intro s hr hs
    exact (chaos_stuck_perm hr hs).trans (sharesStrided_flatten_perm ws hN)
  · intro s hr hs
    have h := chaos_stuck_perm hr hs
    rw [sharesBlock_flatten ws hN] at h
    exact h

/-- C7 witness: two words, two workers. -/
theorem C7_exactly_once_witness :
    (∀ s : RunState String, Reaches (sharesStrided ["a", "b"] 2) s →
      Stuck (sharesStrided ["a", "b"] 2) s →
      (s.trace.map Prod.snd).Perm ["a", "b"]) ∧
    (∀ s : RunState String, Reaches (sharesBlock ["a", "b"] 2) s →
      Stuck (sharesBlock ["a", "b"] 2) s →
      (s.trace.map Prod.snd).Perm ["a", "b"]) ∧
    (∀ s : ChaosState String, ChaosReaches (sharesStrided ["a", "b"] 2) s →
      ChaosStuck (sharesStrided ["a", "b"] 2) s →
      (s.trace.map Prod.snd).Perm ["a", "b"]) ∧
    (∀ s : ChaosState String, ChaosReaches (sharesBlock ["a", "b"] 2) s →
      ChaosStuck (sharesBlock ["a", "b"] 2) s →
      (s.trace.map Prod.snd).Perm ["a", "b"]) :=
  C7_exactly_once ["a", "b"] 2 (by decide)

/-- C8 (confirmed). The process exits 0 exactly when every fallible
primitive call (`malloc`, `strdup`, `sem_init`, `pthread_create`) across
both runs succeeds; otherwise the first failure ends the process at once
with `EXIT_FAILURE`, which is nonzero — the only two exit statuses are `0`
and `EXIT_FAILURE`. -/
theorem C8_exit_status (e : SysEnv) :
    (mainExit e = 0 ↔ e.mallocOk = true ∧ e.strdupOk = true ∧
      e.semInitOk = true ∧ e.threadCreateOk = true) ∧
    (mainExit e = 0 ∨ mainExit e = EXIT_FAILURE) ∧
    EXIT_FAILURE ≠ 0 := by
  rcases e with ⟨m, st, si, tc⟩
  cases m <;> cases st <;> cases si <;> cases tc <;> exact (by decide)

/-- Final gate configuration of a completed synchronized run: the single
token is parked on gate `M % N`, signaled by the last emitting worker. -/
theorem stuck_final_gates [Inhabited α] {shares : List (List α)} {M : Nat}
    (hN : 1 ≤ shares.length) (hM : 1 ≤ M)
    (hw : shares.map List.length =
      (List.range shares.length).map (blockCount M shares.length))
    {s : RunState α} (hr : Reaches shares s) (hs : Stuck shares s) :
    s.sems = oneHot shares.length (M % shares.length) ∧
    (s.sems = init_semaphores shares.length ↔ shares.length ∣ M) ∧
    (s.trace.map Prod.fst).getLast? = some ((M - 1) % shares.length) := by
  obtain ⟨_, htr, _, hsems, _⟩ := stuck_complete hN hw hr hs
  have hrm : M % shares.length < shares.length := Nat.mod_lt _ hN
  refine ⟨hsems, ?_, ?_⟩
  · rw [hsems, init_semaphores_eq_oneHot, oneHot_eq_zero_iff hrm,
      Nat.dvd_iff_mod_eq_zero]
  · rw [htr, canonTrace_map_fst]
    have hM1 : M = (M - 1) + 1 := by omega
    rw [hM1, List.range_succ, List.map_append]
    simp only [List.map_cons, List.map_nil]
    rw [List.getLast?_concat]
    have he : M - 1 + 1 - 1 = M - 1 := by omega
    rw [he]

/-- C9 (confirmed). After a completed synchronized run over `M ≥ 1` words,
under either partitioner, exactly one gate holds a count of 1 — gate
`M % N`, the one the last emitting worker (worker `(M-1) % N`) signaled —
and all other gates are 0; this equals the initial configuration exactly
when `N` divides `M`, so the reset before reuse genuinely changes the
gates whenever `N` does not divide `M`. -/
theorem C9_final_gate_state [Inhabited α] (ws : List α) (N : Nat)
    (hN : 1 ≤ N) (hM : 1 ≤ ws.length) :
    (∀ s : RunState α, Reaches (sharesStrided ws N) s →
      Stuck (sharesStrided ws N) s →
      s.sems = oneHot N (ws.length % N) ∧
      (s.sems = init_semaphores N ↔ N ∣ ws.length) ∧
      (s.trace.map Prod.fst).getLast? = some ((ws.length - 1) % N)) ∧
    (∀ s : RunState α, Reaches (sharesBlock ws N) s →
      Stuck (sharesBlock ws N) s →
      s.sems = oneHot N (ws.length % N) ∧
      (s.sems = init_semaphores N ↔ N ∣ ws.length) ∧
      (s.trace.map Prod.fst).getLast? = some ((ws.length - 1) % N)) := by
  have hNs : 1 ≤ (sharesStrided ws N).length := by
    rw [sharesStrided_length]
    omega
  have hNb : 1 ≤ (sharesBlock ws N).length := by
    rw [sharesBlock_length]
    omega
  constructor
  · intro s hr hs
    have h := stuck_final_gates hNs hM (sharesStrided_counts ws hN) hr hs
    rw [sharesStrided_length] at h
    exact h
  · intro s hr hs
    have h := stuck_final_gates hNb hM (sharesBlock_counts ws hN) hr hs
    rw [sharesBlock_length] at h
    exact h

/-- C9 witness: three words, two workers (`2` does not divide `3`). -/
theorem C9_final_gate_state_witness :
    (∀ s : RunState String, Reaches (sharesStrided ["a", "b", "c"] 2) s →
      Stuck (sharesStrided ["a", "b", "c"] 2) s →
      s.sems = oneHot 2 ((["a", "b", "c"] : List String).length % 2) ∧
      (s.sems = init_semaphores 2 ↔ 2 ∣ (["a", "b", "c"] : List String).length) ∧
      (s.trace.map Prod.fst).getLast? =
        some (((["a", "b", "c"] : List String).length - 1) % 2)) ∧
    (∀ s : RunState String, Reaches (sharesBlock ["a", "b", "c"] 2) s →
      Stuck (sharesBlock ["a", "b", "c"] 2) s →
      s.sems = oneHot 2 ((["a", "b", "c"] : List String).length % 2) ∧
      (s.sems = init_semaphores 2 ↔ 2 ∣ (["a", "b", "c"] : List String).length) ∧
      (s.trace.map Prod.fst).getLast? =
        some (((["a", "b", "c"] : List String).length - 1) % 2)) :=
  C9_final_gate_state ["a", "b", "c"] 2 (by decide) (by decide)

/-- C10 (confirmed). In synchronized mode a worker performs at most one
gate acquire and one gate release per word of its share — never more, so a
worker with an empty share performs no gate operation at all and no worker
touches a gate after its last word — and in a completed run over balanced
shares the counts are exactly one acquire and one release per word. -/
theorem C10_gate_operation_counts [Inhabited α] (shares : List (List α))
    (hN : 1 ≤ shares.length) :
    (∀ s : RunState α, Reaches shares s → ∀ i, i < shares.length →
      s.acq.getD i 0 ≤ wlen shares i ∧ s.post.getD i 0 ≤ wlen shares i ∧
      (wlen shares i = 0 → s.acq.getD i 0 = 0 ∧ s.post.getD i 0 = 0)) ∧
    (∀ M, shares.map List.length =
        (List.range shares.length).map (blockCount M shares.length) →
      ∀ s : RunState α, Reaches shares s → Stuck shares s →
      ∀ i, i < shares.length →
        s.acq.getD i 0 = wlen shares i ∧ s.post.getD i 0 = wlen shares i) := by
  constructor
  · intro s hr i hi
    obtain ⟨hls, hle, hld, hla, hlp, hprof, hbound, hpost, hacq, htr, hperm,
      htok⟩ := inv_of_reaches hN hr
    have hmod : s.trace.length % shares.length < shares.length :=
      Nat.mod_lt _ hN
    have hposti : s.post.getD i 0 ≤ wlen shares i := by
      rw [hpost i hi]
      exact hbound i hi
    have hacqi : s.acq.getD i 0 ≤ wlen shares i := by
      rw [hacq i hi]
      rcases htok with ⟨hemit, _⟩ | ⟨hemit, _, hstrict⟩
      · rw [hemit, getD_replicate hi]
        simpa using hbound i hi
      · rcases eq_or_ne i (s.trace.length % shares.length) with heq | hne
        · have hdone : s.done.getD i 0 = s.trace.length / shares.length := by
            rw [heq]
            simpa using hprof _ hmod
          have hget : s.emitting.getD i false = true := by
            rw [hemit, heq]
            exact getD_set_self (by simpa using hmod) _ _
          rw [hget, hdone, if_pos rfl, heq]
          omega
        · have hget : s.emitting.getD i false = false := by
            rw [hemit, getD_set_ne (fun h => hne h.symm), getD_replicate hi]
          rw [hget]
          simp only [Bool.false_eq_true, if_false, Nat.add_zero]
          exact hbound i hi
    exact ⟨hacqi, hposti, fun hw0 => ⟨by omega, by omega⟩⟩
  · intro M hw s hr hs i hi
    obtain ⟨_, _, _, _, h5⟩ := stuck_complete hN hw hr hs
    exact ⟨(h5 i hi).2.2, (h5 i hi).2.1⟩

/-- C10 witness: one worker with an empty share beside one with a word. -/
theorem C10_gate_operation_counts_witness :
    (∀ s : RunState Nat, Reaches [[7], []] s → ∀ i,
      i < ([[7], []] : List (List Nat)).length →
      s.acq.getD i 0 ≤ wlen [[7], []] i ∧
      s.post.getD i 0 ≤ wlen [[7], []] i ∧
      (wlen [[7], []] i = 0 → s.acq.getD i 0 = 0 ∧ s.post.getD i 0 = 0)) ∧
    (∀ M, ([[7], []] : List (List Nat)).map List.length =
        (List.range ([[7], []] : List (List Nat)).length).map
          (blockCount M ([[7], []] : List (List Nat)).length) →
      ∀ s : RunState Nat, Reaches [[7], []] s → Stuck [[7], []] s →
      ∀ i, i < ([[7], []] : List (List Nat)).length →
        s.acq.getD i 0 = wlen [[7], []] i ∧
        s.post.getD i 0 = wlen [[7], []] i) :=
  C10_gate_operation_counts [[7], []] (by decide)

end ParagraphThreads
